import Mathlib

set_option maxRecDepth 8000

namespace Sudoxu

/-!
Shallow embedding of the Sudoxu 16x16 hexadecimal sudoku engine
(`utils/gameLogic.js`, given in `src/unnamed/part_002` and, in its extended
form with the uniqueness-checking generator, embedded in `src/README.md`
lines 113-741).  The 16 hex symbols `'0'..'F'` are abstracted as `Fin 16`;
a grid cell holds `Option (Fin 16)` (`none` = JS `null`).  `Math.random`
driven choices are modelled by explicit oracle streams, so every theorem
quantifies over all possible randomness.
-/

/-! ## Data model -/

/-- A symbol: one of the 16 hex values `0..F`. -/
abbrev Val := Fin 16

/-- A 16x16 grid of optional symbols (JS: array of 16 arrays of 16 cells,
each a hex-character string or `null`). -/
abbrev Grid := Fin 16 → Fin 16 → Option Val

/-- JS `HEX_VALUES`, the 16 symbols in their fixed order. -/
def hexValues : List Val := List.finRange 16

/-- Build a `Fin 16` from a `Nat` known (at use sites) to be below 16. -/
def mkF (n : Nat) : Fin 16 := ⟨n % 16, Nat.mod_lt n (by decide)⟩

/-- JS `board[r][c] = v` as a functional update. -/
def setCell (g : Grid) (r c : Fin 16) (v : Option Val) : Grid :=
  fun r' c' => if r' = r ∧ c' = c then v else g r' c'

/-- The all-`null` starting board of `generateSolvedBoard`. -/
def emptyGrid : Grid := fun _ _ => none

/-- Two coordinates share a row, a column, or an aligned 4x4 block. -/
def isPeer (p q : Fin 16 × Fin 16) : Prop :=
  p.1 = q.1 ∨ p.2 = q.2 ∨ (p.1.val / 4 = q.1.val / 4 ∧ p.2.val / 4 = q.2.val / 4)

instance (p q : Fin 16 × Fin 16) : Decidable (isPeer p q) := by
  unfold isPeer; infer_instance

/-! ## Constraint validator (part_002 lines 154-244, README lines 306-397) -/

/-- JS `isValidMove(board, row, col, value)`: scans the row, the column and
the 4x4 sub-grid, returning `false` as soon as a cell other than
`(row, col)` holds `value`. -/
def isValidMove (board : Grid) (row col : Fin 16) (value : Val) : Bool :=
  ((List.finRange 16).all fun c =>
    !(decide (c ≠ col) && decide (board row c = some value))) &&
  ((List.finRange 16).all fun r =>
    !(decide (r ≠ row) && decide (board r col = some value))) &&
  ((List.range 4).all fun i =>
    (List.range 4).all fun j =>
      let r := mkF (row.val / 4 * 4 + i)
      let c := mkF (col.val / 4 * 4 + j)
      !(decide (r ≠ row ∨ c ≠ col) && decide (board r c = some value)))

/-- JS `conflicts.filter((conflict, index, self) => index === self.findIndex(
c => c[0] === conflict[0] && c[1] === conflict[1]))`: keep each coordinate
pair's first occurrence only. -/
def dedupJS (l : List (Fin 16 × Fin 16)) : List (Fin 16 × Fin 16) :=
  (l.enum.filter fun p =>
    l.findIdx (fun c => decide (c.1 = p.2.1 ∧ c.2 = p.2.2)) = p.1).map Prod.snd

/-- JS `getConflicts(board, row, col)`: the empty list when the cell is
empty; otherwise, for every other cell of the row, column or block holding
the same value, it pushes that cell and `(row, col)` itself, then removes
duplicates. -/
def getConflicts (board : Grid) (row col : Fin 16) : List (Fin 16 × Fin 16) :=
  match board row col with
  | none => []
  | some value =>
    let rowConf := (List.finRange 16).flatMap fun c =>
      if c ≠ col ∧ board row c = some value then [(row, c), (row, col)] else []
    let colConf := (List.finRange 16).flatMap fun r =>
      if r ≠ row ∧ board r col = some value then [(r, col), (row, col)] else []
    let blockConf := (List.range 4).flatMap fun i =>
      (List.range 4).flatMap fun j =>
        let r := mkF (row.val / 4 * 4 + i)
        let c := mkF (col.val / 4 * 4 + j)
        if (r ≠ row ∨ c ≠ col) ∧ board r c = some value then [(r, c), (row, col)] else []
    dedupJS (rowConf ++ colConf ++ blockConf)

/-- JS `isSolved(board)`: every cell filled and no cell has conflicts. -/
def isSolved (board : Grid) : Bool :=
  ((List.finRange 16).all fun r => (List.finRange 16).all fun c =>
    (board r c).isSome) &&
  ((List.finRange 16).all fun r => (List.finRange 16).all fun c =>
    !(decide (0 < (getConflicts board r c).length)))

/-- The grid obtained by filling every empty cell of `p` with the value at
the same coordinates in `s` (the round-trip completion of the spec). -/
def overlay (p s : Grid) : Grid := fun r c =>
  match p r c with
  | some v => some v
  | none => s r c

/-- A grid is fully filled and every placement passes `isValidMove`. -/
def validGrid (g : Grid) : Prop :=
  (∀ r c, (g r c).isSome) ∧ ∀ r c v, g r c = some v → isValidMove g r c v = true

instance (g : Grid) : Decidable (validGrid g) := by
  unfold validGrid; infer_instance

/-! ## Hint / progress module (part_002 lines 303-353, README lines 691-741) -/

/-- All 256 coordinates in row-major order (the JS double loop). -/
def coordsList : List (Fin 16 × Fin 16) :=
  (List.finRange 16).flatMap fun r => (List.finRange 16).map fun c => (r, c)

/-- One entry of the JS `stats` object: `{filled, total, percentage}`. -/
structure ValueStats where
  filled : Nat
  total : Nat
  percentage : ℚ
deriving DecidableEq

/-- The counting double loop of `getValueCompletionStats`: walk the grid in
row-major order, incrementing the filled count of each value seen. -/
def statsCount (board : Grid) : Fin 16 → Nat :=
  coordsList.foldl (fun st q =>
    match board q.1 q.2 with
    | some v => fun w => if w = v then st w + 1 else st w
    | none => st) (fun _ => 0)

/-- JS `getValueCompletionStats(board)`: per symbol, its filled count out of
a total of 16, and `percentage = filled / total * 100` (the JS float
arithmetic is exact here, so ℚ is a faithful model). -/
def getValueCompletionStats (board : Grid) : Fin 16 → ValueStats := fun v =>
  { filled := statsCount board v, total := 16,
    percentage := (statsCount board v : ℚ) / 16 * 100 }

/-- JS `Math.round` (round half toward positive infinity). -/
def jsRound (q : ℚ) : Int := Int.floor (q + 1 / 2)

/-- The record returned by `getNextValueToTackle`. -/
structure NextValue where
  value : Option Val
  percentage : Int
  remaining : Nat
deriving DecidableEq

/-- JS `getNextValueToTackle(board)` (part_002 lines 334-353): scan the
16 symbols in order keeping the strictly highest completion percentage
below 100, starting from the sentinel `-1`. -/
def getNextValueToTackle (board : Grid) : NextValue :=
  let stats := getValueCompletionStats board
  let r := hexValues.foldl (fun (st : Option Val × ℚ) v =>
    if (stats v).percentage > st.2 ∧ (stats v).percentage < 100
    then (some v, (stats v).percentage) else st) (none, -1)
  { value := r.1
    percentage := jsRound r.2
    remaining :=
      match r.1 with
      | some v => 16 - (stats v).filled
      | none => 0 }

/-! ## State-passing forms of the read-only functions.  The JS bodies of
`isValidMove`, `getConflicts`, `isSolved`, `getValueCompletionStats` and
`getNextValueToTackle` contain no assignment to any cell of `board`
(they only read it), so their statement-by-statement state-passing
translations return the argument grid unchanged. -/

/-- `isValidMove` as a state transformer on the grid. -/
def isValidMoveST (board : Grid) (row col : Fin 16) (value : Val) : Bool × Grid :=
  (isValidMove board row col value, board)

/-- `getConflicts` as a state transformer on the grid. -/
def getConflictsST (board : Grid) (row col : Fin 16) :
    List (Fin 16 × Fin 16) × Grid :=
  (getConflicts board row col, board)

/-- `isSolved` as a state transformer on the grid. -/
def isSolvedST (board : Grid) : Bool × Grid :=
  (isSolved board, board)

/-- `getValueCompletionStats` as a state transformer on the grid. -/
def getValueCompletionStatsST (board : Grid) : (Fin 16 → ValueStats) × Grid :=
  (getValueCompletionStats board, board)

/-- `getNextValueToTackle` as a state transformer on the grid. -/
def getNextValueToTackleST (board : Grid) : NextValue × Grid :=
  (getNextValueToTackle board, board)

/-! ## Bounded solution counter (README lines 266-304) -/

/-- The row-major search for the first empty cell shared by the solvers. -/
def findFirstEmpty (g : Grid) : Option (Fin 16 × Fin 16) :=
  (List.finRange 16).findSome? fun r => (List.finRange 16).findSome? fun c =>
    if g r c = none then some (r, c) else none

/-- The number of empty cells of a grid. -/
def emptyCount (g : Grid) : Nat :=
  (Finset.univ.filter fun q : Fin 16 × Fin 16 => g q.1 q.2 = none).card

/-- `S` is a completion of `board` reachable by the brute-force search: it is
fully filled, extends `board`, and every cell that was empty in `board` holds
a value passing `isValidMove` in `S`.  (A search placement is legal at the
moment it is made iff, in the final grid, the placed cell conflicts with no
other cell.) -/
def isCompletion (board S : Grid) : Prop :=
  (∀ r c, (S r c).isSome) ∧
  (∀ r c, board r c ≠ none → S r c = board r c) ∧
  (∀ r c v, board r c = none → S r c = some v → isValidMove S r c v = true)

instance (board S : Grid) : Decidable (isCompletion board S) := by
  unfold isCompletion; infer_instance

/-- The finite set of completions of a partially filled grid. -/
def completionsF (board : Grid) : Finset Grid :=
  Finset.univ.filter (isCompletion board)

/-- The number of completions of a partially filled grid. -/
def numCompletions (board : Grid) : Nat := (completionsF board).card

/-- The inner candidate-value loop of JS `countSolutions.solveBrute`: try
each symbol in order; on a recursive success increment the counter and
return `true` as soon as it reaches `maxS` (JS `solutionCount >= maxSolutions`),
otherwise keep scanning; when the loop ends report `false` with the current
counter.  The shared mutable `solutionCount` is threaded explicitly. -/
def tryValues (next : Grid → Nat → Bool × Nat) (board : Grid) (r c : Fin 16)
    (maxS : Nat) : List Val → Nat → Bool × Nat
  | [], count => (false, count)
  | v :: vs, count =>
    if isValidMove board r c v then
      let res := next (setCell board r c (some v)) count
      if res.1 then
        if maxS ≤ res.2 + 1 then (true, res.2 + 1)
        else tryValues next board r c maxS vs (res.2 + 1)
      else tryValues next board r c maxS vs res.2
    else tryValues next board r c maxS vs count

/-- JS `countSolutions.solveBrute` (README lines 270-295): find the first
empty cell in row-major order and run the candidate loop there; report
`true` when no empty cell remains.  `fuel` bounds the recursion depth; any
fuel above the number of empty cells (at most 256) is never exhausted. -/
def solveBruteCS : Nat → Grid → Nat → Nat → Bool × Nat
  | 0, _, _, count => (false, count)
  | fuel + 1, board, maxS, count =>
    match findFirstEmpty board with
    | none => (true, count)
    | some (r, c) =>
      tryValues (fun b k => solveBruteCS fuel b maxS k) board r c maxS hexValues count

/-- JS `countSolutions(board, maxSolutions)` (README lines 266-299): run the
brute-force search and return the final counter. -/
def countSolutions (board : Grid) (maxSolutions : Nat) : Nat :=
  (solveBruteCS 257 board maxSolutions 0).2

/-- The exact behaviour of `solveBruteCS` on adequate fuel, proved in
`solveBruteCS_spec`. -/
def specCS (board : Grid) (maxS count : Nat) : Bool × Nat :=
  if emptyCount board = 0 then (true, count)
  else if count + numCompletions board < maxS then (false, count + numCompletions board)
  else (true, maxS + (emptyCount board - 1))

/-- JS `hasUniqueSolution(board)` (README lines 302-304). -/
def hasUniqueSolution (board : Grid) : Bool := countSolutions board 2 = 1

/-! ## Randomized solved-grid builder (part_002 lines 7-125, README 119-237) -/

/-- No filled cell conflicts with any other: every placement already on the
grid passes `isValidMove`. -/
def conflictFree (g : Grid) : Prop :=
  ∀ r c v, g r c = some v → isValidMove g r c v = true

/-- The candidate loop of JS `solveBoardRecursive`: try the shuffled values
in order; a successful recursion propagates its board up; a failed one has
restored the board (mutate-and-undo), modelled by continuing from the
original grid with the advanced oracle index. -/
def tryValuesSB (next : Grid → Nat → Bool × Grid × Nat) (board : Grid) (r c : Fin 16) :
    List Val → Nat → Bool × Grid × Nat
  | [], k => (false, board, k)
  | v :: vs, k =>
    if isValidMove board r c v then
      let res := next (setCell board r c (some v)) k
      if res.1 then res
      else tryValuesSB next board r c vs res.2.2
    else tryValuesSB next board r c vs k

/-- JS `solveBoardRecursive(board)` (part_002 lines 20-43): find the first
empty cell in row-major order, shuffle `HEX_VALUES` (modelled as the image
of the oracle permutation `rp k`, one fresh permutation per call), and try
each candidate.  Returns the success flag, the board, and the next oracle
index.  `fuel` bounds recursion depth; 257 exceeds any possible depth. -/
def solveBoardRecursive (rp : Nat → Equiv.Perm (Fin 16)) :
    Nat → Grid → Nat → Bool × Grid × Nat
  | 0, board, k => (false, board, k)
  | fuel + 1, board, k =>
    match findFirstEmpty board with
    | none => (true, board, k)
    | some (r, c) =>
      tryValuesSB (fun b j => solveBoardRecursive rp fuel b j) board r c
        (hexValues.map (rp k)) (k + 1)

/-- The double loop of JS `createValidPattern` (part_002 lines 46-84)
before the repair pass: row 0 in symbol order, later rows by the shifted
offset formula chosen per sub-grid row. -/
def createValidPatternBase : Grid := fun r c =>
  if r.val = 0 then some (mkF c.val)
  else
    let sgr := r.val / 4
    if sgr = 0 then some (mkF ((c.val + r.val * 4) % 16))
    else if sgr = 1 then some (mkF ((c.val + r.val * 4 + 4) % 16))
    else if sgr = 2 then some (mkF ((c.val + r.val * 4 + 8) % 16))
    else some (mkF ((c.val + r.val * 4 + 12) % 16))

/-- One cell of a `fixBoardConflicts` scan: if the cell has conflicts,
clear it and give it the first value that is now legal, restoring the
original value when none is. -/
def fixCellStep (board : Grid) (q : Fin 16 × Fin 16) : Grid × Bool :=
  if 0 < (getConflicts board q.1 q.2).length then
    let orig := board q.1 q.2
    let b1 := setCell board q.1 q.2 none
    let b2 :=
      match hexValues.find? (fun v => isValidMove b1 q.1 q.2 v) with
      | some v => setCell b1 q.1 q.2 (some v)
      | none => setCell b1 q.1 q.2 orig
    (b2, true)
  else (board, false)

/-- One full scan of JS `fixBoardConflicts`, tracking whether any cell had
conflicts. -/
def fixPass (board : Grid) : Grid × Bool :=
  coordsList.foldl (fun st q =>
    let res := fixCellStep st.1 q
    (res.1, st.2 || res.2)) (board, false)

/-- The `while (attempts < maxAttempts)` loop of `fixBoardConflicts`:
run scans until one is conflict-free or the cap runs out. -/
def fixLoop : Nat → Grid → Grid
  | 0, b => b
  | n + 1, b =>
    let res := fixPass b
    if res.2 = false then res.1 else fixLoop n res.1

/-- JS `fixBoardConflicts(board)` (part_002 lines 87-125) with its cap of
1000 passes. -/
def fixBoardConflicts (board : Grid) : Grid := fixLoop 1000 board

/-- JS `createValidPattern()` (part_002 lines 46-84): the pattern fill
followed by the repair pass. -/
def createValidPattern : Grid := fixBoardConflicts createValidPatternBase

/-- JS `generateSolvedBoard()` (part_002 lines 7-17): randomized
backtracking from the empty board, falling back to `createValidPattern`
when the search fails. -/
def generateSolvedBoard (rp : Nat → Equiv.Perm (Fin 16)) : Grid :=
  let t := solveBoardRecursive rp 257 emptyGrid 0
  if t.1 then t.2.1 else createValidPattern

/-- Cell index inside an aligned 4x4 block: block `b`, offset `i`. -/
def blockCell (b i : Fin 4) : Fin 16 :=
  ⟨4 * b.val + i.val, by have := b.isLt; have := i.isLt; omega⟩


/-! ## Puzzle carver (README lines 400-676) -/

/-- The difficulty switch of `generatePuzzle`. -/
inductive Difficulty where
  | easy
  | medium
  | hard
  | test
deriving DecidableEq

structure PuzzlePair where
  puzzle : Grid
  solution : Grid

def generateResultFields (p : PuzzlePair) : List String := ["puzzle", "solution"]

structure RandomSource where
  perm : Nat → Equiv.Perm (Fin 16)
  testShuffle : Nat → Nat
  pairShuffle : Nat → Nat
  restoreShuffle : Nat → Nat
  jitter : Nat → ℚ

def rsZero : RandomSource :=
  { perm := fun _ => Equiv.refl _
    testShuffle := fun _ => 0
    pairShuffle := fun _ => 0
    restoreShuffle := fun _ => 0
    jitter := fun _ => 0 }

def swapJS (d : α) (l : List α) (i j : Nat) : List α :=
  (l.set i (l.getD j d)).set j (l.getD i d)

def fisherYatesAux (rs : Nat → Nat) (d : α) : Nat → List α → List α
  | 0, l => l
  | i + 1, l => fisherYatesAux rs d i (swapJS d l (i + 1) (rs (i + 1) % (i + 2)))

def fisherYates (rs : Nat → Nat) (d : α) (l : List α) : List α :=
  fisherYatesAux rs d (l.length - 1) l

def symmetricPairsList : List ((Fin 16 × Fin 16) × (Fin 16 × Fin 16)) :=
  (List.range 8).flatMap fun r => (List.range 8).map fun c =>
    ((mkF r, mkF c), (mkF (15 - r), mkF (15 - c)))

def symRemLoop (cap : ℚ) :
    List ((Fin 16 × Fin 16) × (Fin 16 × Fin 16)) → Grid → Nat → Grid × Nat
  | [], puzzle, removed => (puzzle, removed)
  | pr :: rest, puzzle, removed =>
    if cap ≤ (removed : ℚ) then (puzzle, removed)
    else if pr.1.1 = pr.2.1 ∧ pr.1.2 = pr.2.2 then symRemLoop cap rest puzzle removed
    else symRemLoop cap rest
      (setCell (setCell puzzle pr.1.1 pr.1.2 none) pr.2.1 pr.2.2 none) (removed + 2)

def performSymmetricRemoval (puzzle : Grid) (target : Nat) (rs : Nat → Nat) :
    Grid × Nat :=
  let cap : ℚ := min ((target : ℚ) * (3 / 5)) 100
  let pairs := fisherYates rs ((0, 0), (0, 0)) symmetricPairsList
  symRemLoop cap pairs puzzle 0

def calculateCellRemovalPriority (puzzle : Grid) (row col : Fin 16) (jit : ℚ) : ℚ :=
  let value := puzzle row col
  let valueCount :=
    ((List.finRange 16).countP fun c => decide (puzzle row c = value)) +
    ((List.finRange 16).countP fun r => decide (puzzle r col = value)) +
    (((List.range 4).flatMap fun i => (List.range 4).map fun j =>
        ((mkF (row.val / 4 * 4 + i), mkF (col.val / 4 * 4 + j)) : Fin 16 × Fin 16)).countP
      fun q => decide (puzzle q.1 q.2 = value))
  50 - (valueCount : ℚ) + jit

structure CellPriority where
  row : Fin 16
  col : Fin 16
  priority : ℚ

def buildCellPriorities (puzzle : Grid) (jit : Nat → ℚ) : List CellPriority :=
  coordsList.enum.filterMap fun p =>
    if puzzle p.2.1 p.2.2 ≠ none then
      some { row := p.2.1, col := p.2.2,
             priority := calculateCellRemovalPriority puzzle p.2.1 p.2.2 (jit p.1) }
    else none

def sortCellPriorities (l : List CellPriority) : List CellPriority :=
  l.mergeSort fun a b => decide (b.priority ≤ a.priority)

def tryValuesL (next : Grid → Nat → Nat → Bool × Nat) (board : Grid) (r c : Fin 16)
    (maxS : Nat) : List Val → Nat → Nat → Bool × Nat
  | [], _, count => (false, count)
  | v :: vs, depth, count =>
    if isValidMove board r c v then
      let res := next (setCell board r c (some v)) (depth + 1) count
      if res.1 then
        if maxS ≤ res.2 + 1 then (true, res.2 + 1)
        else tryValuesL next board r c maxS vs depth (res.2 + 1)
      else tryValuesL next board r c maxS vs depth res.2
    else tryValuesL next board r c maxS vs depth count

def solveBruteL : Nat → Grid → Nat → Nat → Nat → Nat → Bool × Nat
  | 0, _, _, _, _, count => (false, count)
  | fuel + 1, board, maxS, maxDepth, depth, count =>
    if maxDepth ≤ depth then (true, count)
    else
      match findFirstEmpty board with
      | none => (true, count)
      | some (r, c) =>
        tryValuesL (fun b dp k => solveBruteL fuel b maxS maxDepth dp k)
          board r c maxS hexValues depth count

def countSolutionsLimited (board : Grid) (maxS maxDepth curDepth : Nat) : Nat :=
  if maxDepth ≤ curDepth then 1
  else (solveBruteL 257 board maxS maxDepth curDepth 0).2

def hasLimitedUniqueSolution (puzzle : Grid) : Bool :=
  countSolutionsLimited puzzle 2 50 0 = 1

structure GuidedState where
  puzzle : Grid
  removed : Nat
  attempts : Nat

def shouldValidateFlag (d : Difficulty) (a : Nat) : Bool :=
  let sv := true
  let sv := if d = Difficulty.easy ∧ a % 3 ≠ 0 then false else sv
  if d = Difficulty.medium ∧ a % 2 ≠ 0 then false else sv

def guidedStep (d : Difficulty) (st : GuidedState) (cell : CellPriority) : GuidedState :=
  let a := st.attempts + 1
  let originalValue := st.puzzle cell.row cell.col
  let cleared := setCell st.puzzle cell.row cell.col none
  if shouldValidateFlag d a && !hasLimitedUniqueSolution cleared then
    { puzzle := setCell cleared cell.row cell.col originalValue
      removed := st.removed
      attempts := a }
  else
    { puzzle := cleared, removed := st.removed + 1, attempts := a }

def guidedLoop (d : Difficulty) (remaining maxAtt : Nat) :
    List CellPriority → GuidedState → GuidedState
  | [], st => st
  | cell :: rest, st =>
    if remaining ≤ st.removed ∨ maxAtt ≤ st.attempts then st
    else guidedLoop d remaining maxAtt rest (guidedStep d st cell)

def performGuidedRemoval (puzzle : Grid) (remaining : Nat) (d : Difficulty)
    (jit : Nat → ℚ) : Grid × Nat :=
  let maxAttempts := if d = Difficulty.hard then remaining * 4 else remaining * 2
  let prios := sortCellPriorities (buildCellPriorities puzzle jit)
  let st := guidedLoop d remaining maxAttempts prios
    { puzzle := puzzle, removed := 0, attempts := 0 }
  (st.puzzle, st.removed)

def restoreLoop (sol : Grid) : List (Fin 16 × Fin 16) → Nat → Grid → Grid
  | _, 0, p => p
  | [], _ + 1, p => p
  | q :: rest, n + 1, p =>
    if hasUniqueSolution p then p
    else restoreLoop sol rest n (setCell p q.1 q.2 (sol q.1 q.2))

def restoreForUniqueness (puzzle solution : Grid) (rs : Nat → Nat) : Grid :=
  let empt := coordsList.filter fun q => decide (puzzle q.1 q.2 = none)
  let sh := fisherYates rs (0, 0) empt
  restoreLoop solution sh (min sh.length 20) puzzle

def generateOptimizedUniquePuzzle (solution : Grid) (target : Nat) (d : Difficulty)
    (rs : RandomSource) : PuzzlePair :=
  let phase1 := performSymmetricRemoval solution target rs.pairShuffle
  let puzzle2 :=
    if phase1.2 < target
    then (performGuidedRemoval phase1.1 (target - phase1.2) d rs.jitter).1
    else phase1.1
  let puzzle3 :=
    if hasUniqueSolution puzzle2 then puzzle2
    else restoreForUniqueness puzzle2 solution rs.restoreShuffle
  { puzzle := puzzle3, solution := solution }

def targetEmptyCellsFor : Difficulty → Nat
  | Difficulty.easy => 60
  | Difficulty.medium => 100
  | Difficulty.hard => 180
  | Difficulty.test => 2

def generatePuzzle (d : Difficulty) (rs : RandomSource) : PuzzlePair :=
  let solution := generateSolvedBoard rs.perm
  if d = Difficulty.test then
    let positions := fisherYates rs.testShuffle (0, 0) coordsList
    let p0 := positions.getD 0 (0, 0)
    let p1 := positions.getD 1 (0, 0)
    { puzzle := setCell (setCell solution p0.1 p0.2 none) p1.1 p1.2 none
      solution := solution }
  else
    generateOptimizedUniquePuzzle solution (targetEmptyCellsFor d) d rs




def refines (p s : Grid) : Prop := ∀ r c, p r c = none ∨ p r c = s r c


/-! ## Concrete grids used as counterexamples and witnesses -/

/-- A reference solved grid: cell `(r, c)` holds `(4 (r mod 4) + r div 4 + c) mod 16`.
Used to witness that an empty board is completable. -/
def patternGrid : Grid := fun r c =>
  some ⟨(4 * (r.val % 4) + r.val / 4 + c.val) % 16, Nat.mod_lt _ (by decide)⟩

/-- A grid whose only filled cell is `(0, 0)` (holding symbol `0`). -/
def gOneCell : Grid := setCell emptyGrid 0 0 (some 0)

/-- A grid holding symbol `0` at `(0, 0)` and `(0, 5)`: two conflicting cells. -/
def gConflictPair : Grid := setCell (setCell emptyGrid 0 0 (some 0)) 0 5 (some 0)

/-- `patternGrid` with its last two cells `(15, 14)` and `(15, 15)` cleared:
a grid with two empty cells and a unique completion. -/
def gTwoEmpty : Grid := setCell (setCell patternGrid 15 14 none) 15 15 none

end Sudoxu

namespace Sudoxu

/-! # Theorems -/

lemma mkF_val {n : Nat} (h : n < 16) : (mkF n).val = n := Nat.mod_eq_of_lt h

lemma mem_dedupJS {l : List (Fin 16 × Fin 16)} {x : Fin 16 × Fin 16} :
    x ∈ dedupJS l ↔ x ∈ l := by
  unfold dedupJS
  constructor
  · intro hx
    rcases List.mem_map.1 hx with ⟨⟨i, y⟩, hp, rfl⟩
    have hp' := (List.mem_filter.1 hp).1
    exact List.getElem?_mem (List.mk_mem_enum_iff_getElem?.1 hp')
  · intro hx
    have hlt : l.findIdx (fun c => decide (c.1 = x.1 ∧ c.2 = x.2)) < l.length :=
      List.findIdx_lt_length_of_exists ⟨x, hx, by simp⟩
    have hget : l[l.findIdx (fun c => decide (c.1 = x.1 ∧ c.2 = x.2))] = x := by
      have := @List.findIdx_getElem _
        (fun c : Fin 16 × Fin 16 => decide (c.1 = x.1 ∧ c.2 = x.2)) l hlt
      simp only [decide_eq_true_eq] at this
      exact Prod.ext this.1 this.2
    refine List.mem_map.2 ⟨(l.findIdx (fun c => decide (c.1 = x.1 ∧ c.2 = x.2)), x),
      List.mem_filter.2 ⟨?_, by simp⟩, rfl⟩
    refine List.mk_mem_enum_iff_getElem?.2 ?_
    rw [List.getElem?_eq_getElem hlt]
    exact congrArg some hget

lemma isPeer_symm {p q : Fin 16 × Fin 16} (h : isPeer p q) : isPeer q p := by
  unfold isPeer at h ⊢
  tauto

lemma isPeer_refl (p : Fin 16 × Fin 16) : isPeer p p := Or.inl rfl

/-- C2. `isValidMove(board, row, col, value)` is `true` iff no cell other
than `(row, col)` in the same row, the same column, or the same aligned
4x4 block currently holds `value`; the cell `(row, col)` itself is excluded
from the comparison. -/
theorem isValidMove_characterization (board : Grid) (row col : Fin 16) (value : Val) :
    isValidMove board row col value = true ↔
      ∀ q : Fin 16 × Fin 16, isPeer q (row, col) → q ≠ (row, col) →
        board q.1 q.2 ≠ some value := by
  unfold isValidMove
  simp only [Bool.and_eq_true, List.all_eq_true, List.mem_finRange, List.mem_range,
    Bool.not_eq_true', Bool.and_eq_false_iff, decide_eq_false_iff_not, not_not,
    Decidable.not_not, true_implies]
  constructor
  · rintro ⟨⟨hrow, hcol⟩, hblock⟩ ⟨a, b⟩ hp hne hval
    rcases hp with h1 | h2 | ⟨h3, h4⟩
    · simp only at h1
      subst h1
      have hb : b ≠ col := by
        intro hbc; exact hne (by simp [hbc])
      rcases hrow b with h | h
      · exact hb h
      · exact h hval
    · simp only at h2
      subst h2
      have ha : a ≠ row := by
        intro hac; exact hne (by simp [hac])
      rcases hcol a with h | h
      · exact ha h
      · exact h hval
    · simp only at h3 h4
      have hi : a.val % 4 < 4 := Nat.mod_lt _ (by omega)
      have hj : b.val % 4 < 4 := Nat.mod_lt _ (by omega)
      have := hblock (a.val % 4) hi (b.val % 4) hj
      have hra : mkF (row.val / 4 * 4 + a.val % 4) = a := by
        apply Fin.ext
        rw [mkF_val (by omega)]
        omega
      have hcb : mkF (col.val / 4 * 4 + b.val % 4) = b := by
        apply Fin.ext
        rw [mkF_val (by omega)]
        omega
      rw [hra, hcb] at this
      rcases this with h | h
      · apply h
        by_contra hq
        push_neg at hq
        exact hne (by simp [hq.1, hq.2])
      · exact h hval
  · intro h
    refine ⟨⟨fun b => ?_, fun a => ?_⟩, fun i hi j hj => ?_⟩
    · by_cases hb : b = col
      · exact Or.inl hb
      · refine Or.inr fun hval => h (row, b) (Or.inl rfl) (by simp [hb]) hval
    · by_cases ha : a = row
      · exact Or.inl ha
      · refine Or.inr fun hval => h (a, col) (Or.inr (Or.inl rfl)) (by simp [ha]) hval
    · set r := mkF (row.val / 4 * 4 + i) with hr
      set c := mkF (col.val / 4 * 4 + j) with hc
      have hrv : r.val = row.val / 4 * 4 + i := mkF_val (by omega)
      have hcv : c.val = col.val / 4 * 4 + j := mkF_val (by omega)
      by_cases hq : r = row ∧ c = col
      · exact Or.inl (by simp [hq.1, hq.2])
      · refine Or.inr fun hval => ?_
        refine h (r, c) (Or.inr (Or.inr ⟨?_, ?_⟩)) ?_ hval
        · simp only; omega
        · simp only; omega
        · simpa [Prod.ext_iff] using hq

/-- A closed instance of `isValidMove_characterization` at a concrete grid. -/
theorem isValidMove_characterization_witness :
    isValidMove gConflictPair 0 3 1 = true :=
  (isValidMove_characterization gConflictPair 0 3 1).2 (by decide)

lemma blockRange_iff (row a : Fin 16) :
    (∃ i < 4, mkF (row.val / 4 * 4 + i) = a) ↔ a.val / 4 = row.val / 4 := by
  constructor
  · rintro ⟨i, hi, rfl⟩
    rw [mkF_val (by omega)]
    omega
  · intro h
    refine ⟨a.val % 4, Nat.mod_lt _ (by omega), ?_⟩
    apply Fin.ext
    rw [mkF_val (by omega)]
    omega

lemma mem_getConflicts (g : Grid) (row col : Fin 16) (q : Fin 16 × Fin 16) :
    q ∈ getConflicts g row col ↔
      ∃ v, g row col = some v ∧
        ((q ≠ (row, col) ∧ isPeer q (row, col) ∧ g q.1 q.2 = some v) ∨
         (q = (row, col) ∧
           ∃ p, p ≠ (row, col) ∧ isPeer p (row, col) ∧ g p.1 p.2 = some v)) := by
  unfold getConflicts
  rcases hv : g row col with _ | v
  · simp
  · rw [mem_dedupJS]
    simp only [List.mem_append, List.mem_flatMap, List.mem_finRange, List.mem_range,
      true_and, List.mem_ite_nil_right, List.mem_cons, List.mem_singleton,
      List.not_mem_nil, or_false]
    constructor
    · rintro ((⟨c, ⟨hcc, hgv⟩, hq⟩ | ⟨r, ⟨hrr, hgv⟩, hq⟩) | ⟨i, hi, j, hj, ⟨hne, hgv⟩, hq⟩)
      · refine ⟨v, rfl, ?_⟩
        rcases hq with rfl | rfl
        · exact Or.inl ⟨by simp [Prod.ext_iff, hcc], Or.inl rfl, hgv⟩
        · exact Or.inr ⟨rfl, (row, c), by simp [Prod.ext_iff, hcc], Or.inl rfl, hgv⟩
      · refine ⟨v, rfl, ?_⟩
        rcases hq with rfl | rfl
        · exact Or.inl ⟨by simp [Prod.ext_iff, hrr], Or.inr (Or.inl rfl), hgv⟩
        · exact Or.inr ⟨rfl, (r, col), by simp [Prod.ext_iff, hrr], Or.inr (Or.inl rfl), hgv⟩
      · have hr4 : (mkF (row.val / 4 * 4 + i)).val / 4 = row.val / 4 := by
          rw [mkF_val (by omega)]; omega
        have hc4 : (mkF (col.val / 4 * 4 + j)).val / 4 = col.val / 4 := by
          rw [mkF_val (by omega)]; omega
        have hnself : (mkF (row.val / 4 * 4 + i), mkF (col.val / 4 * 4 + j)) ≠ (row, col) := by
          simp only [Ne, Prod.ext_iff, not_and]
          intro h1 h2
          rcases hne with hne | hne
          · exact hne h1
          · exact hne h2
        refine ⟨v, rfl, ?_⟩
        rcases hq with rfl | rfl
        · exact Or.inl ⟨hnself, Or.inr (Or.inr ⟨hr4, hc4⟩), hgv⟩
        · exact Or.inr ⟨rfl, _, hnself, Or.inr (Or.inr ⟨hr4, hc4⟩), hgv⟩
    · rintro ⟨v2, hv2, hcase⟩
      injection hv2 with hv2
      subst hv2
      have main : ∀ p : Fin 16 × Fin 16, p ≠ (row, col) → isPeer p (row, col) →
          g p.1 p.2 = some v →
          ∀ e : Fin 16 × Fin 16, (e = p ∨ e = (row, col)) →
          ((∃ c, (¬c = col ∧ g row c = some v) ∧ (e = (row, c) ∨ e = (row, col))) ∨
           (∃ r, (¬r = row ∧ g r col = some v) ∧ (e = (r, col) ∨ e = (row, col)))) ∨
          (∃ i < 4, ∃ j < 4,
            ((¬mkF (row.val / 4 * 4 + i) = row ∨ ¬mkF (col.val / 4 * 4 + j) = col) ∧
              g (mkF (row.val / 4 * 4 + i)) (mkF (col.val / 4 * 4 + j)) = some v) ∧
            (e = (mkF (row.val / 4 * 4 + i), mkF (col.val / 4 * 4 + j)) ∨
              e = (row, col))) := by
        rintro ⟨a, b⟩ hne hpeer hval e he
        rcases hpeer with h1 | h2 | ⟨h3, h4⟩
        · simp only at h1
          subst h1
          have hb : ¬b = col := fun hbc => hne (by simp [Prod.ext_iff, hbc])
          exact Or.inl (Or.inl ⟨b, ⟨hb, hval⟩, he⟩)
        · simp only at h2
          subst h2
          have ha : ¬a = row := fun hac => hne (by simp [Prod.ext_iff, hac])
          exact Or.inl (Or.inr ⟨a, ⟨ha, hval⟩, he⟩)
        · simp only at h3 h4
          refine Or.inr ⟨a.val % 4, Nat.mod_lt _ (by omega), b.val % 4,
            Nat.mod_lt _ (by omega), ?_⟩
          have hra : mkF (row.val / 4 * 4 + a.val % 4) = a := by
            apply Fin.ext; rw [mkF_val (by omega)]; omega
          have hcb : mkF (col.val / 4 * 4 + b.val % 4) = b := by
            apply Fin.ext; rw [mkF_val (by omega)]; omega
          rw [hra, hcb]
          refine ⟨⟨?_, hval⟩, he⟩
          by_contra hcon
          push_neg at hcon
          exact hne (by simp [Prod.ext_iff, hcon.1, hcon.2])
      rcases hcase with ⟨hne, hpeer, hval⟩ | ⟨rfl, p, hne, hpeer, hval⟩
      · exact main q hne hpeer hval q (Or.inl rfl)
      · exact main p hne hpeer hval (row, col) (Or.inr rfl)

/-- C3 counterexample. For the grid whose only filled cell is `(0, 0)`, the
cell is not empty, yet `getConflicts` returns the empty list — it does not
contain `(0, 0)` itself, contrary to the claim that the result is the other
conflicting cells plus `(row, col)` itself. -/
theorem getConflicts_self_counterexample :
    gOneCell 0 0 ≠ none ∧
      ((0, 0) : Fin 16 × Fin 16) ∉ getConflicts gOneCell 0 0 ∧
      getConflicts gOneCell 0 0 = [] := by
  decide

/-- C3 (amended). If the cell is empty `getConflicts` returns the empty
list; otherwise its members are exactly the other cells sharing the row,
column or block that hold the same value, plus `(row, col)` itself whenever
at least one such conflicting cell exists (and the list is empty when none
does).  Conflict membership is symmetric: if A's conflict list contains B,
then B's list contains A and each list contains its own cell. -/
theorem getConflicts_characterization (g : Grid) (row col : Fin 16) :
    (g row col = none → getConflicts g row col = []) ∧
    (∀ q : Fin 16 × Fin 16, q ∈ getConflicts g row col ↔
      ∃ v, g row col = some v ∧
        ((q ≠ (row, col) ∧ isPeer q (row, col) ∧ g q.1 q.2 = some v) ∨
         (q = (row, col) ∧
           ∃ p, p ≠ (row, col) ∧ isPeer p (row, col) ∧ g p.1 p.2 = some v))) ∧
    (∀ a b : Fin 16 × Fin 16, b ∈ getConflicts g a.1 a.2 →
      a ∈ getConflicts g b.1 b.2 ∧ a ∈ getConflicts g a.1 a.2 ∧
        b ∈ getConflicts g b.1 b.2) := by
  refine ⟨fun h => by unfold getConflicts; rw [h], fun q => mem_getConflicts g row col q, ?_⟩
  intro a b hb
  rcases (mem_getConflicts g a.1 a.2 b).1 hb with ⟨v, hav, hcase⟩
  rcases hcase with ⟨hne, hpeer, hbv⟩ | ⟨rfl, p, hne, hpeer, hpv⟩
  · have hne' : a ≠ b := fun h => hne (by rw [h])
    have hpeer' : isPeer (a.1, a.2) (b.1, b.2) := by
      have := isPeer_symm hpeer
      simpa using this
    refine ⟨?_, ?_, ?_⟩
    · exact (mem_getConflicts g b.1 b.2 a).2
        ⟨v, hbv, Or.inl ⟨by simpa using hne', hpeer', by simpa using hav⟩⟩
    · exact (mem_getConflicts g a.1 a.2 a).2
        ⟨v, hav, Or.inr ⟨by simp, b, by simpa using hne, by simpa using hpeer, hbv⟩⟩
    · exact (mem_getConflicts g b.1 b.2 b).2
        ⟨v, hbv, Or.inr ⟨by simp, a, by simpa using hne', hpeer', by simpa using hav⟩⟩
  · have hmem : a ∈ getConflicts g a.1 a.2 := by
      refine (mem_getConflicts g a.1 a.2 a).2 ⟨v, hav, Or.inr ⟨by simp, p, hne, hpeer, hpv⟩⟩
    exact ⟨hmem, hmem, hmem⟩

theorem isSolved_iff_validGrid (g : Grid) : isSolved g = true ↔ validGrid g := by
  unfold isSolved validGrid
  simp only [Bool.and_eq_true, List.all_eq_true, List.mem_finRange, true_implies,
    Bool.not_eq_true', decide_eq_false_iff_not, Nat.not_lt, Nat.le_zero,
    List.length_eq_zero]
  constructor
  · rintro ⟨hfill, hconf⟩
    refine ⟨fun r c => hfill r c, fun r c v hv => ?_⟩
    rw [isValidMove_characterization]
    intro q hpeer hne hval
    have hmem : q ∈ getConflicts g r c :=
      (mem_getConflicts g r c q).2 ⟨v, hv, Or.inl ⟨hne, hpeer, hval⟩⟩
    rw [hconf r c] at hmem
    exact absurd hmem (List.not_mem_nil q)
  · rintro ⟨hfill, hvalid⟩
    refine ⟨hfill, fun r c => ?_⟩
    rw [List.eq_nil_iff_forall_not_mem]
    intro q hq
    rcases (mem_getConflicts g r c q).1 hq with ⟨v, hv, hcase⟩
    rcases hcase with ⟨hne, hpeer, hval⟩ | ⟨rfl, p, hne, hpeer, hval⟩
    · exact ((isValidMove_characterization g r c v).1 (hvalid r c v hv) q hpeer hne) hval
    · exact ((isValidMove_characterization g r c v).1 (hvalid r c v hv) p hpeer hne) hval

/-- C9. The validator and hint/progress functions never mutate the grid:
their state-passing embeddings return the argument grid unchanged (the JS
bodies contain no write to any cell of the grid). -/
theorem validator_no_mutation (board : Grid) (row col : Fin 16) (value : Val) :
    (isValidMoveST board row col value).2 = board ∧
    (getConflictsST board row col).2 = board ∧
    (isSolvedST board).2 = board ∧
    (getValueCompletionStatsST board).2 = board ∧
    (getNextValueToTackleST board).2 = board :=
  ⟨rfl, rfl, rfl, rfl, rfl⟩

lemma percentage_lt_100_iff (g : Grid) (v : Val) :
    (getValueCompletionStats g v).percentage < 100 ↔ statsCount g v < 16 := by
  unfold getValueCompletionStats
  simp only
  rw [div_mul_eq_mul_div, div_lt_iff₀ (by norm_num : (0:ℚ) < 16)]
  constructor
  · intro h
    by_contra hn
    push_neg at hn
    have h16 : (16 : ℚ) ≤ (statsCount g v : ℚ) := by exact_mod_cast hn
    nlinarith
  · intro h
    have h16 : (statsCount g v : ℚ) < 16 := by exact_mod_cast h
    nlinarith

/-- C10. On any grid where no symbol has completion percentage strictly
below 100, `getNextValueToTackle` returns the record
`{value: null, percentage: -1, remaining: 0}`: the fold never updates its
`(null, -1)` start state, and `Math.round(-1) = -1`. -/
theorem getNextValueToTackle_sentinel (g : Grid)
    (h : ∀ v : Val, ¬(getValueCompletionStats g v).percentage < 100) :
    getNextValueToTackle g = ⟨none, -1, 0⟩ := by
  unfold getNextValueToTackle
  have hfold : ∀ (l : List Val), (∀ v ∈ l, ¬(getValueCompletionStats g v).percentage < 100) →
      l.foldl (fun (st : Option Val × ℚ) v =>
        if (getValueCompletionStats g v).percentage > st.2 ∧
            (getValueCompletionStats g v).percentage < 100
        then (some v, (getValueCompletionStats g v).percentage) else st) (none, -1) =
      (none, -1) := by
    intro l
    induction l with
    | nil => intro _; rfl
    | cons x xs ih =>
      intro hall
      simp only [List.foldl_cons]
      rw [if_neg (fun hc => (hall x (by simp)) hc.2)]
      exact ih (fun v hv => hall v (by simp [hv]))
  dsimp only
  rw [hfold hexValues (fun v _ => h v)]
  norm_num [jsRound]

/-- Closed instance of `getNextValueToTackle_sentinel`: on the fully solved
`patternGrid` every symbol is at 100%, and the sentinel record is returned. -/
theorem getNextValueToTackle_sentinel_witness :
    getNextValueToTackle patternGrid = ⟨none, -1, 0⟩ :=
  getNextValueToTackle_sentinel patternGrid (fun v => by
    rw [percentage_lt_100_iff]
    revert v
    decide)

lemma emptyCount_le (g : Grid) : emptyCount g ≤ 256 := by
  calc emptyCount g ≤ Finset.univ.card := Finset.card_filter_le _ _
  _ = 256 := by simp

lemma emptyCount_eq_zero_iff (g : Grid) :
    emptyCount g = 0 ↔ ∀ r c, g r c ≠ none := by
  unfold emptyCount
  rw [Finset.card_eq_zero, Finset.filter_eq_empty_iff]
  constructor
  · intro h r c hn
    exact h (Finset.mem_univ (r, c)) hn
  · intro h q _
    exact h q.1 q.2

lemma emptyCount_pos (g : Grid) (r c : Fin 16) (h : g r c = none) :
    1 ≤ emptyCount g := by
  apply Finset.card_pos.2
  exact ⟨(r, c), Finset.mem_filter.2 ⟨Finset.mem_univ _, h⟩⟩

lemma emptyCount_setCell (g : Grid) (r c : Fin 16) (v : Val) (h : g r c = none) :
    emptyCount (setCell g r c (some v)) = emptyCount g - 1 := by
  unfold emptyCount
  have hset : (Finset.univ.filter fun q : Fin 16 × Fin 16 =>
      setCell g r c (some v) q.1 q.2 = none) =
      (Finset.univ.filter fun q : Fin 16 × Fin 16 => g q.1 q.2 = none).erase (r, c) := by
    ext q
    simp only [Finset.mem_filter, Finset.mem_univ, true_and, Finset.mem_erase]
    unfold setCell
    by_cases hq : q.1 = r ∧ q.2 = c
    · rw [if_pos hq]
      simp only [reduceCtorEq, false_iff, not_and]
      intro hne
      exact absurd (Prod.ext hq.1 hq.2) hne
    · rw [if_neg hq]
      constructor
      · intro hn
        refine ⟨?_, hn⟩
        intro he
        subst he
        exact hq ⟨rfl, rfl⟩
      · exact fun h => h.2
  rw [hset, Finset.card_erase_of_mem]
  exact Finset.mem_filter.2 ⟨Finset.mem_univ _, h⟩

lemma findFirstEmpty_eq_none_iff (g : Grid) :
    findFirstEmpty g = none ↔ ∀ r c, g r c ≠ none := by
  unfold findFirstEmpty
  rw [List.findSome?_eq_none_iff]
  constructor
  · intro h r c hn
    have := h r (List.mem_finRange r)
    rw [List.findSome?_eq_none_iff] at this
    have := this c (List.mem_finRange c)
    rw [if_pos hn] at this
    exact absurd this (by simp)
  · intro h r _
    rw [List.findSome?_eq_none_iff]
    intro c _
    rw [if_neg (h r c)]

lemma findFirstEmpty_some (g : Grid) (r c : Fin 16)
    (h : findFirstEmpty g = some (r, c)) : g r c = none := by
  unfold findFirstEmpty at h
  rcases List.exists_of_findSome?_eq_some h with ⟨r', _, hr'⟩
  rcases List.exists_of_findSome?_eq_some hr' with ⟨c', _, hc'⟩
  by_cases hn : g r' c' = none
  · rw [if_pos hn] at hc'
    injection hc' with hc'
    obtain ⟨h1, h2⟩ := Prod.mk.injEq .. ▸ (hc' : (r', c') = (r, c))
    rw [← h1, ← h2]
    exact hn
  · rw [if_neg hn] at hc'
    exact absurd hc' (by simp)


lemma isValidMove_mono {board S : Grid} {r c : Fin 16} {v : Val}
    (hext : ∀ r' c', board r' c' ≠ none → S r' c' = board r' c')
    (h : isValidMove S r c v = true) : isValidMove board r c v = true := by
  rw [isValidMove_characterization] at h ⊢
  intro q hpeer hne hval
  have : S q.1 q.2 = some v := by
    rw [hext q.1 q.2 (by rw [hval]; simp)]
    exact hval
  exact h q hpeer hne this

lemma completionsF_full (board : Grid) (h : ∀ r c, board r c ≠ none) :
    completionsF board = {board} := by
  unfold completionsF
  ext S
  simp only [Finset.mem_filter, Finset.mem_univ, true_and, Finset.mem_singleton]
  constructor
  · rintro ⟨hfull, hext, hval⟩
    funext r c
    exact hext r c (h r c)
  · rintro rfl
    refine ⟨fun r c => ?_, fun r c _ => rfl, fun r c v hn _ => absurd hn (h r c)⟩
    rcases hv : S r c with _ | w
    · exact absurd hv (h r c)
    · rfl

lemma numCompletions_full (board : Grid) (h : ∀ r c, board r c ≠ none) :
    numCompletions board = 1 := by
  unfold numCompletions
  rw [completionsF_full board h, Finset.card_singleton]

lemma completion_value_mem {board S : Grid} {r c : Fin 16} {v : Val}
    (hrc : board r c = none) (hC : isCompletion board S) (hv : S r c = some v) :
    isValidMove board r c v = true :=
  isValidMove_mono (fun r' c' h => hC.2.1 r' c' h) (hC.2.2 r c v hrc hv)

lemma completion_ext_value {board S : Grid} {r c : Fin 16} {v : Val}
    (hrc : board r c = none) (hvalid : isValidMove board r c v = true) :
    (isCompletion board S ∧ S r c = some v) ↔
      isCompletion (setCell board r c (some v)) S := by
  constructor
  · rintro ⟨⟨hfull, hext, hval⟩, hSrc⟩
    refine ⟨hfull, fun r' c' hn => ?_, fun r' c' v' hn hv' => ?_⟩
    · unfold setCell at hn ⊢
      by_cases hq : r' = r ∧ c' = c
      · rw [if_pos hq]
        rw [hq.1, hq.2]
        exact hSrc
      · rw [if_neg hq] at hn ⊢
        exact hext r' c' hn
    · unfold setCell at hn
      by_cases hq : r' = r ∧ c' = c
      · rw [if_pos hq] at hn
        exact absurd hn (by simp)
      · rw [if_neg hq] at hn
        exact hval r' c' v' hn hv'
  · intro hC
    have hSrc : S r c = some v := by
      have := hC.2.1 r c (by unfold setCell; simp)
      rw [this]
      unfold setCell
      simp
    refine ⟨⟨hC.1, fun r' c' hn => ?_, fun r' c' v' hn hv' => ?_⟩, hSrc⟩
    · have hne : ¬(r' = r ∧ c' = c) := by
        rintro ⟨rfl, rfl⟩
        exact hn hrc
      have := hC.2.1 r' c' (by unfold setCell; rw [if_neg hne]; exact hn)
      rw [this]
      unfold setCell
      rw [if_neg hne]
    · by_cases hq : r' = r ∧ c' = c
      · obtain ⟨rfl, rfl⟩ := hq
        have hvv : v' = v := by
          rw [hSrc] at hv'
          injection hv' with h
          exact h.symm
        subst hvv
        rw [isValidMove_characterization]
        intro q hpeer hne hval2
        by_cases hb : board q.1 q.2 = none
        · by_cases hself : q = (r', c')
          · exact hne hself
          · have hq2 : setCell board r' c' (some v') q.1 q.2 = none := by
              unfold setCell
              rw [if_neg (by
                rintro ⟨h1, h2⟩
                exact hself (Prod.ext h1 h2))]
              exact hb
            rcases hw : S q.1 q.2 with _ | w
            · rw [hw] at hval2
              exact absurd hval2 (by simp)
            · have hvalw := hC.2.2 q.1 q.2 w hq2 hw
              rw [isValidMove_characterization] at hvalw
              have hpeerback : isPeer (r', c') (q.1, q.2) := isPeer_symm (by simpa using hpeer)
              have hnw := hvalw (r', c') (by simpa using hpeerback)
                (by
                  intro he
                  apply hself
                  have h12 : r' = q.1 ∧ c' = q.2 := by
                    have := Prod.mk.injEq .. ▸ he
                    exact ⟨this.1, this.2⟩
                  exact Prod.ext h12.1.symm h12.2.symm)
              rw [hw] at hval2
              injection hval2 with hvw
              rw [hvw] at hnw
              exact hnw hSrc
        · have hq_ne : ¬(q.1 = r' ∧ q.2 = c') := by
            rintro ⟨h1, h2⟩
            rw [h1, h2] at hb
            exact hb hrc
          have hset_ne : setCell board r' c' (some v') q.1 q.2 = board q.1 q.2 := by
            unfold setCell
            rw [if_neg hq_ne]
          have hSq : S q.1 q.2 = board q.1 q.2 := by
            have := hC.2.1 q.1 q.2 (by rw [hset_ne]; exact hb)
            rw [this, hset_ne]
          rw [isValidMove_characterization] at hvalid
          apply hvalid q hpeer hne
          rw [← hSq]
          exact hval2
      · have hn2 : setCell board r c (some v) r' c' = none := by
          unfold setCell
          rw [if_neg hq]
          exact hn
        exact hC.2.2 r' c' v' hn2 hv'


lemma mem_completionsF (board S : Grid) : S ∈ completionsF board ↔ isCompletion board S := by
  unfold completionsF
  simp [Finset.mem_filter]

attribute [irreducible] completionsF

lemma numCompletions_decompose (board : Grid) (r c : Fin 16) (hrc : board r c = none) :
    numCompletions board = ∑ v : Val, (if isValidMove board r c v then
      numCompletions (setCell board r c (some v)) else 0) := by
  unfold numCompletions
  rw [Finset.card_eq_sum_card_fiberwise
    (f := fun S => (S r c).getD 0) (t := Finset.univ) (fun x _ => Finset.mem_univ _)]
  apply Finset.sum_congr rfl
  intro v _
  by_cases hvalid : isValidMove board r c v = true
  · rw [if_pos hvalid]
    apply congrArg Finset.card
    ext S
    rw [Finset.mem_filter, mem_completionsF, mem_completionsF]
    constructor
    · rintro ⟨hC, hget⟩
      rcases Option.isSome_iff_exists.1 (hC.1 r c) with ⟨w, hw⟩
      have hSrc : S r c = some v := by
        rw [hw] at hget ⊢
        simp only [Option.getD_some] at hget
        rw [hget]
      exact (completion_ext_value hrc hvalid).1 ⟨hC, hSrc⟩
    · intro hC2
      obtain ⟨hC, hSrc⟩ := (completion_ext_value hrc hvalid).2 hC2
      refine ⟨hC, ?_⟩
      rw [hSrc]
      rfl
  · rw [if_neg hvalid]
    refine Finset.card_eq_zero.2 (Finset.eq_empty_iff_forall_not_mem.2 ?_)
    intro S hS
    rcases Finset.mem_filter.1 hS with ⟨hmem, hget⟩
    have hC : isCompletion board S := (mem_completionsF board S).1 hmem
    rcases Option.isSome_iff_exists.1 (hC.1 r c) with ⟨w, hw⟩
    have hSrc : S r c = some v := by
      rw [hw] at hget ⊢
      simp only [Option.getD_some] at hget
      rw [hget]
    exact hvalid (completion_value_mem hrc hC hSrc)

lemma sum_univ_eq_hexValues_sum (f : Val → Nat) :
    ∑ v : Val, f v = (hexValues.map f).sum := by
  rw [Fin.sum_univ_def]
  rfl

lemma tryValues_spec (fuel maxS : Nat) (board : Grid) (r c : Fin 16)
    (hrc : board r c = none)
    (hfuel : emptyCount board ≤ fuel)
    (IH : ∀ b count, emptyCount b < fuel → count < maxS →
      solveBruteCS fuel b maxS count = specCS b maxS count) :
    ∀ (vs : List Val) (count : Nat), count < maxS →
      tryValues (fun b k => solveBruteCS fuel b maxS k) board r c maxS vs count =
        (if count + (vs.map fun v => if isValidMove board r c v then
            numCompletions (setCell board r c (some v)) else 0).sum < maxS
         then (false, count + (vs.map fun v => if isValidMove board r c v then
            numCompletions (setCell board r c (some v)) else 0).sum)
         else (true, maxS + (emptyCount board - 1))) := by
  have hE1 : 1 ≤ emptyCount board := emptyCount_pos board r c hrc
  intro vs
  induction vs with
  | nil =>
    intro count hcount
    simp only [tryValues, List.map_nil, List.sum_nil, Nat.add_zero]
    rw [if_pos hcount]
  | cons v vs ih =>
    intro count hcount
    simp only [tryValues, List.map_cons, List.sum_cons]
    by_cases hvalid : isValidMove board r c v = true
    · rw [if_pos hvalid, if_pos hvalid]
      have hEset : emptyCount (setCell board r c (some v)) = emptyCount board - 1 :=
        emptyCount_setCell board r c v hrc
      have hElt : emptyCount (setCell board r c (some v)) < fuel := by omega
      rw [IH _ count hElt hcount]
      unfold specCS
      by_cases hzero : emptyCount (setCell board r c (some v)) = 0
      · rw [if_pos hzero]
        have hNv1 : numCompletions (setCell board r c (some v)) = 1 := by
          apply numCompletions_full
          rw [← emptyCount_eq_zero_iff]
          exact hzero
        rw [hNv1]
        show (if maxS ≤ count + 1 then ((true, count + 1) : Bool × Nat)
          else tryValues (fun b k => solveBruteCS fuel b maxS k) board r c maxS vs
            (count + 1)) = _
        by_cases hle : maxS ≤ count + 1
        · rw [if_pos hle]
          have hgoal : ¬ count + (1 + (vs.map fun v => if isValidMove board r c v then
              numCompletions (setCell board r c (some v)) else 0).sum) < maxS := by omega
          rw [if_neg hgoal]
          exact Prod.ext rfl (by omega)
        · rw [if_neg hle]
          rw [ih (count + 1) (by omega)]
          have harith : count + 1 + (vs.map fun v => if isValidMove board r c v then
              numCompletions (setCell board r c (some v)) else 0).sum =
              count + (1 + (vs.map fun v => if isValidMove board r c v then
              numCompletions (setCell board r c (some v)) else 0).sum) := by omega
          rw [harith]
      · rw [if_neg hzero]
        by_cases hlt : count + numCompletions (setCell board r c (some v)) < maxS
        · rw [if_pos hlt]
          show tryValues (fun b k => solveBruteCS fuel b maxS k) board r c maxS vs
            (count + numCompletions (setCell board r c (some v))) = _
          rw [ih _ hlt]
          have harith : count + numCompletions (setCell board r c (some v)) +
              (vs.map fun v => if isValidMove board r c v then
              numCompletions (setCell board r c (some v)) else 0).sum =
              count + (numCompletions (setCell board r c (some v)) +
              (vs.map fun v => if isValidMove board r c v then
              numCompletions (setCell board r c (some v)) else 0).sum) := by omega
          rw [harith]
        · rw [if_neg hlt]
          show (if maxS ≤ maxS + (emptyCount (setCell board r c (some v)) - 1) + 1
            then ((true, maxS + (emptyCount (setCell board r c (some v)) - 1) + 1) :
              Bool × Nat)
            else tryValues (fun b k => solveBruteCS fuel b maxS k) board r c maxS vs
              (maxS + (emptyCount (setCell board r c (some v)) - 1) + 1)) = _
          rw [if_pos (by omega)]
          have hgoal : ¬ count + (numCompletions (setCell board r c (some v)) +
              (vs.map fun v => if isValidMove board r c v then
              numCompletions (setCell board r c (some v)) else 0).sum) < maxS := by omega
          rw [if_neg hgoal]
          exact Prod.ext rfl (by omega)
    · rw [if_neg hvalid, if_neg hvalid]
      rw [ih count hcount]
      rw [Nat.zero_add]

theorem solveBruteCS_spec : ∀ (fuel : Nat) (board : Grid) (maxS count : Nat),
    emptyCount board < fuel → count < maxS →
    solveBruteCS fuel board maxS count = specCS board maxS count := by
  intro fuel
  induction fuel with
  | zero =>
    intro board maxS count hE _
    exact absurd hE (by omega)
  | succ fuel ih =>
    intro board maxS count hE hcount
    rcases hfind : findFirstEmpty board with _ | rc
    · have hE0 : emptyCount board = 0 :=
        (emptyCount_eq_zero_iff board).2 ((findFirstEmpty_eq_none_iff board).1 hfind)
      simp only [solveBruteCS, hfind]
      unfold specCS
      rw [if_pos hE0]
    · obtain ⟨r, c⟩ := rc
      have hrc : board r c = none := findFirstEmpty_some board r c hfind
      have hEpos : 1 ≤ emptyCount board := emptyCount_pos board r c hrc
      simp only [solveBruteCS, hfind]
      rw [tryValues_spec fuel maxS board r c hrc (by omega)
        (fun b cnt => ih b maxS cnt) hexValues count hcount]
      have hM : (hexValues.map fun v => if isValidMove board r c v then
          numCompletions (setCell board r c (some v)) else 0).sum =
          numCompletions board := by
        rw [numCompletions_decompose board r c hrc, sum_univ_eq_hexValues_sum]
      rw [hM]
      unfold specCS
      rw [if_neg (show ¬ emptyCount board = 0 by omega)]


/-- C4 (amended). For every grid and every cap of at least 1 (written
`cap + 1`): when the grid is fully filled the search reports 0 (the lone
completion is never counted, as only parent frames increment the counter);
otherwise, when the number `N` of completions is strictly below the cap the
exact count `N` is returned; and when `N` reaches the cap the returned value
is `cap + E - 1` for `E` empty cells — at least the cap but, for `E ≥ 2`,
strictly above it, because after the short-circuit every ancestor frame
increments the counter once more.  With cap 2 the result is 1 exactly when
a grid with an empty cell has one completion. -/
theorem countSolutions_formula (board : Grid) (cap : Nat) :
    countSolutions board (cap + 1) =
      if emptyCount board = 0 then 0
      else if numCompletions board < cap + 1 then numCompletions board
      else (cap + 1) + (emptyCount board - 1) := by
  unfold countSolutions
  rw [solveBruteCS_spec 257 board (cap + 1) 0
    (by have := emptyCount_le board; omega) (by omega)]
  unfold specCS
  by_cases h0 : emptyCount board = 0
  · rw [if_pos h0, if_pos h0]
  · rw [if_neg h0, if_neg h0]
    rw [Nat.zero_add]
    by_cases hlt : numCompletions board < cap + 1
    · rw [if_pos hlt, if_pos hlt]
    · rw [if_neg hlt, if_neg hlt]

/-- C4 counterexample. On `gTwoEmpty` (two empty cells, one completion)
with `maxSolutions = 1`, `countSolutions` returns 2: after the counter
reaches the cap at the deepest frame, every ancestor frame sees a `true`
recursive result and increments the counter once more, so the returned
integer exceeds the cap. -/
theorem countSolutions_cap_counterexample :
    countSolutions gTwoEmpty 1 = 2 ∧ ¬(2 ≤ 1) := by
  constructor
  · decide
  · decide

lemma validGrid_iff (g : Grid) :
    validGrid g ↔ (∀ r c, (g r c).isSome) ∧ conflictFree g := Iff.rfl

lemma conflictFree_setCell {g : Grid} {r c : Fin 16} {v : Val}
    (hfree : conflictFree g) (hval : isValidMove g r c v = true) :
    conflictFree (setCell g r c (some v)) := by
  intro r' c' w hw
  rw [isValidMove_characterization]
  intro q hpeer hne hqv
  by_cases hq : q.1 = r ∧ q.2 = c
  · -- the peer q is the newly set cell, holding v
    have hqval : setCell g r c (some v) q.1 q.2 = some v := by
      unfold setCell
      rw [if_pos hq]
    rw [hqval] at hqv
    injection hqv with hqv
    -- so w = v; two subcases on whether (r', c') is itself the set cell
    by_cases hrc' : r' = r ∧ c' = c
    · -- then q = (r', c') contradicting q ≠ (r', c')
      exact hne (by
        apply Prod.ext
        · rw [hq.1, hrc'.1]
        · rw [hq.2, hrc'.2])
    · -- (r', c') holds w in g; v = w conflicts with isValidMove g r c v
      have hgrc' : g r' c' = some w := by
        have := hw
        unfold setCell at this
        rw [if_neg hrc'] at this
        exact this
      rw [isValidMove_characterization] at hval
      have hpeer' : isPeer (r', c') (r, c) := by
        apply isPeer_symm
        have hqrc : ((r : Fin 16), (c : Fin 16)) = q := (Prod.ext hq.1 hq.2).symm
        rw [hqrc]
        exact hpeer
      have hner : (r', c') ≠ (r, c) := by
        intro he
        apply hrc'
        have := Prod.mk.injEq .. ▸ he
        exact ⟨this.1, this.2⟩
      have hcon := hval (r', c') hpeer' hner
      rw [hqv] at hcon
      exact hcon hgrc'
  · -- the peer q is an old cell
    have hqold : setCell g r c (some v) q.1 q.2 = g q.1 q.2 := by
      unfold setCell
      rw [if_neg hq]
    rw [hqold] at hqv
    by_cases hrc' : r' = r ∧ c' = c
    · -- (r', c') is the set cell: w = v, and q is an old peer holding v
      have : setCell g r c (some v) r' c' = some v := by
        unfold setCell
        rw [if_pos hrc']
      rw [this] at hw
      injection hw with hw
      rw [isValidMove_characterization] at hval
      have hpeer2 : isPeer q (r, c) := by
        have hrceq : ((r' : Fin 16), (c' : Fin 16)) = (r, c) := Prod.ext hrc'.1 hrc'.2
        rw [← hrceq]
        exact hpeer
      have hne2 : q ≠ (r, c) := by
        intro he
        apply hq
        have := Prod.mk.injEq .. ▸ he
        exact ⟨this.1, this.2⟩
      have := hval q hpeer2 hne2
      rw [← hw] at hqv
      exact this hqv
    · -- both old cells: use conflict-freeness of g
      have hgrc' : g r' c' = some w := by
        have := hw
        unfold setCell at this
        rw [if_neg hrc'] at this
        exact this
      have := hfree r' c' w hgrc'
      rw [isValidMove_characterization] at this
      exact this q hpeer hne hqv

lemma tryValuesSB_sound (next : Grid → Nat → Bool × Grid × Nat) (board : Grid)
    (r c : Fin 16)
    (hnext : ∀ b j, conflictFree b → (next b j).1 = true → validGrid (next b j).2.1)
    (hfree : conflictFree board) :
    ∀ (vs : List Val) (k : Nat),
      (tryValuesSB next board r c vs k).1 = true →
      validGrid (tryValuesSB next board r c vs k).2.1 := by
  intro vs
  induction vs with
  | nil => intro k h; exact absurd h (by simp [tryValuesSB])
  | cons v vs ih =>
    intro k h
    simp only [tryValuesSB] at h ⊢
    by_cases hvalid : isValidMove board r c v = true
    · rw [if_pos hvalid] at h ⊢
      by_cases hres : (next (setCell board r c (some v)) k).1 = true
      · rw [if_pos hres] at h ⊢
        exact hnext _ _ (conflictFree_setCell hfree hvalid) hres
      · rw [if_neg hres] at h ⊢
        exact ih _ h
    · rw [if_neg hvalid] at h ⊢
      exact ih _ h

lemma solveBoardRecursive_sound (rp : Nat → Equiv.Perm (Fin 16)) :
    ∀ (fuel : Nat) (board : Grid) (k : Nat), conflictFree board →
      (solveBoardRecursive rp fuel board k).1 = true →
      validGrid (solveBoardRecursive rp fuel board k).2.1 := by
  intro fuel
  induction fuel with
  | zero => intro board k _ h; exact absurd h (by simp [solveBoardRecursive])
  | succ fuel ih =>
    intro board k hfree h
    rcases hfind : findFirstEmpty board with _ | rc
    · simp only [solveBoardRecursive, hfind] at h ⊢
      refine ⟨fun r c => ?_, hfree⟩
      have := (findFirstEmpty_eq_none_iff board).1 hfind r c
      rcases hv : board r c with _ | w
      · exact absurd hv this
      · rfl
    · obtain ⟨r, c⟩ := rc
      simp only [solveBoardRecursive, hfind] at h ⊢
      exact tryValuesSB_sound _ board r c (fun b j => ih b j) hfree _ _ h

lemma tryValuesSB_complete (next : Grid → Nat → Bool × Grid × Nat) (board : Grid)
    (r c : Fin 16) (S : Grid) (vstar : Val)
    (hrc : board r c = none)
    (hcomp : isCompletion board S)
    (hSrc : S r c = some vstar)
    (hnext : ∀ v j, isValidMove board r c v = true →
      isCompletion (setCell board r c (some v)) S →
      (next (setCell board r c (some v)) j).1 = true) :
    ∀ (vs : List Val) (k : Nat), vstar ∈ vs →
      (tryValuesSB next board r c vs k).1 = true := by
  intro vs
  induction vs with
  | nil => intro k h; exact absurd h (List.not_mem_nil vstar)
  | cons v vs ih =>
    intro k hmem
    simp only [tryValuesSB]
    by_cases hvv : v = vstar
    · subst hvv
      have hvalid : isValidMove board r c v = true :=
        completion_value_mem hrc hcomp hSrc
      rw [if_pos hvalid]
      have hCset : isCompletion (setCell board r c (some v)) S :=
        (completion_ext_value hrc hvalid).1 ⟨hcomp, hSrc⟩
      have hres : (next (setCell board r c (some v)) k).1 = true :=
        hnext v k hvalid hCset
      rw [if_pos hres]
      exact hres
    · have hmem' : vstar ∈ vs := by
        rcases List.mem_cons.1 hmem with he | he
        · exact absurd he.symm hvv
        · exact he
      by_cases hvalid : isValidMove board r c v = true
      · rw [if_pos hvalid]
        by_cases hres : (next (setCell board r c (some v)) k).1 = true
        · rw [if_pos hres]
          exact hres
        · rw [if_neg hres]
          exact ih _ hmem'
      · rw [if_neg hvalid]
        exact ih _ hmem'

lemma solveBoardRecursive_complete (rp : Nat → Equiv.Perm (Fin 16)) :
    ∀ (fuel : Nat) (board : Grid) (k : Nat) (S : Grid),
      emptyCount board < fuel → isCompletion board S →
      (solveBoardRecursive rp fuel board k).1 = true := by
  intro fuel
  induction fuel with
  | zero => intro board k S hE _; exact absurd hE (by omega)
  | succ fuel ih =>
    intro board k S hE hcomp
    rcases hfind : findFirstEmpty board with _ | rc
    · simp [solveBoardRecursive, hfind]
    · obtain ⟨r, c⟩ := rc
      have hrc : board r c = none := findFirstEmpty_some board r c hfind
      rcases Option.isSome_iff_exists.1 (hcomp.1 r c) with ⟨vstar, hSrc⟩
      simp only [solveBoardRecursive, hfind]
      apply tryValuesSB_complete _ board r c S vstar hrc hcomp hSrc
      · intro v j hvalid hCset
        have hEset : emptyCount (setCell board r c (some v)) < fuel := by
          have h1 := emptyCount_setCell board r c v hrc
          have h2 := emptyCount_pos board r c hrc
          omega
        exact ih _ j S hEset hCset
      · refine List.mem_map.2 ⟨(rp k).symm vstar, List.mem_finRange _, ?_⟩
        simp

lemma patternGrid_completion : isCompletion emptyGrid patternGrid := by
  decide

lemma generateSolvedBoard_valid (rp : Nat → Equiv.Perm (Fin 16)) :
    validGrid (generateSolvedBoard rp) := by
  unfold generateSolvedBoard
  have hfree : conflictFree emptyGrid := by
    intro r c v hv
    exact absurd hv (by simp [emptyGrid])
  have hE : emptyCount emptyGrid < 257 := by
    have := emptyCount_le emptyGrid
    omega
  have htrue : (solveBoardRecursive rp 257 emptyGrid 0).1 = true :=
    solveBoardRecursive_complete rp 257 emptyGrid 0 patternGrid hE patternGrid_completion
  show validGrid (if (solveBoardRecursive rp 257 emptyGrid 0).1 = true
    then (solveBoardRecursive rp 257 emptyGrid 0).2.1 else createValidPattern)
  rw [if_pos htrue]
  exact solveBoardRecursive_sound rp 257 emptyGrid 0 hfree htrue


lemma valAt_spec {g : Grid} (hfull : ∀ r c, (g r c).isSome) (r c : Fin 16) :
    g r c = some ((g r c).get (hfull r c)) := (Option.some_get (hfull r c)).symm

lemma validGrid_row_injective {g : Grid} (h : validGrid g) (r : Fin 16) :
    Function.Injective (fun c => (g r c).get (h.1 r c)) := by
  intro c1 c2 he
  by_contra hne
  have h1 : g r c1 = some ((g r c1).get (h.1 r c1)) := valAt_spec h.1 r c1
  have h2 : g r c2 = some ((g r c2).get (h.1 r c2)) := valAt_spec h.1 r c2
  have hv := h.2 r c1 _ h1
  rw [isValidMove_characterization] at hv
  refine hv (r, c2) (Or.inl rfl) (by simp [Prod.ext_iff]; intro hc; exact hne hc.symm) ?_
  rw [h2]
  simp only at he
  rw [he]

lemma validGrid_col_injective {g : Grid} (h : validGrid g) (c : Fin 16) :
    Function.Injective (fun r => (g r c).get (h.1 r c)) := by
  intro r1 r2 he
  by_contra hne
  have h1 : g r1 c = some ((g r1 c).get (h.1 r1 c)) := valAt_spec h.1 r1 c
  have h2 : g r2 c = some ((g r2 c).get (h.1 r2 c)) := valAt_spec h.1 r2 c
  have hv := h.2 r1 c _ h1
  rw [isValidMove_characterization] at hv
  refine hv (r2, c) (Or.inr (Or.inl rfl))
    (by simp [Prod.ext_iff]; intro hr; exact hne hr.symm) ?_
  rw [h2]
  simp only at he
  rw [he]

lemma blockCell_div (b i : Fin 4) : (blockCell b i).val / 4 = b.val := by
  unfold blockCell
  simp only
  omega

lemma blockCell_inj {b : Fin 4} {i1 i2 : Fin 4} (h : blockCell b i1 = blockCell b i2) :
    i1 = i2 := by
  unfold blockCell at h
  have := Fin.mk.injEq .. ▸ h
  apply Fin.ext
  omega

lemma validGrid_block_injective {g : Grid} (h : validGrid g) (bR bC : Fin 4) :
    Function.Injective (fun ij : Fin 4 × Fin 4 =>
      (g (blockCell bR ij.1) (blockCell bC ij.2)).get
        (h.1 (blockCell bR ij.1) (blockCell bC ij.2))) := by
  rintro ⟨i1, j1⟩ ⟨i2, j2⟩ he
  by_contra hne
  have h1 := valAt_spec h.1 (blockCell bR i1) (blockCell bC j1)
  have h2 := valAt_spec h.1 (blockCell bR i2) (blockCell bC j2)
  have hv := h.2 (blockCell bR i1) (blockCell bC j1) _ h1
  rw [isValidMove_characterization] at hv
  have hcellne : (blockCell bR i2, blockCell bC j2) ≠ (blockCell bR i1, blockCell bC j1) := by
    simp only [Ne, Prod.ext_iff, not_and]
    intro hr hc
    apply hne
    have hi : i2 = i1 := blockCell_inj hr
    have hj : j2 = j1 := blockCell_inj hc
    rw [hi, hj]
  have hpeer : isPeer (blockCell bR i2, blockCell bC j2) (blockCell bR i1, blockCell bC j1) := by
    refine Or.inr (Or.inr ⟨?_, ?_⟩)
    · rw [blockCell_div, blockCell_div]
    · rw [blockCell_div, blockCell_div]
  refine hv _ hpeer hcellne ?_
  rw [h2]
  simp only at he
  rw [he]

lemma exactlyOnce_of_injective {f : Fin 16 → Val} (hinj : Function.Injective f)
    (v : Val) : ∃! x, f x = v := by
  have hsurj : Function.Surjective f := Finite.surjective_of_injective hinj
  rcases hsurj v with ⟨x, hx⟩
  exact ⟨x, hx, fun y hy => hinj (hy.trans hx.symm)⟩

lemma exactlyOnce_of_injective_block {f : Fin 4 × Fin 4 → Val}
    (hinj : Function.Injective f) (v : Val) : ∃! x, f x = v := by
  have hbij : Function.Bijective f :=
    (Fintype.bijective_iff_injective_and_card f).2 ⟨hinj, by simp⟩
  rcases hbij.2 v with ⟨x, hx⟩
  exact ⟨x, hx, fun y hy => hinj (hy.trans hx.symm)⟩

/-- C5. Every grid returned by `generateSolvedBoard` is fully filled and
holds each of the 16 symbols exactly once in every row, every column and
every aligned 4x4 block, for every randomness oracle.  (The backtracking
branch always succeeds — the empty grid is completable and the exhaustive
search is complete — so the `createValidPattern` fallback is never the
returned grid.) -/
theorem generateSolvedBoard_units (rp : Nat → Equiv.Perm (Fin 16)) :
    (∀ r c, (generateSolvedBoard rp r c).isSome) ∧
    (∀ (r : Fin 16) (v : Val), ∃! c, generateSolvedBoard rp r c = some v) ∧
    (∀ (c : Fin 16) (v : Val), ∃! r, generateSolvedBoard rp r c = some v) ∧
    (∀ (bR bC : Fin 4) (v : Val), ∃! ij : Fin 4 × Fin 4,
      generateSolvedBoard rp (blockCell bR ij.1) (blockCell bC ij.2) = some v) := by
  have h := generateSolvedBoard_valid rp
  set g := generateSolvedBoard rp with hg
  refine ⟨h.1, fun r v => ?_, fun c v => ?_, fun bR bC v => ?_⟩
  · rcases exactlyOnce_of_injective (validGrid_row_injective h r) v with ⟨c, hc, huniq⟩
    refine ⟨c, ?_, fun c' hc' => huniq c' ?_⟩
    · show g r c = some v
      rw [valAt_spec h.1 r c, hc]
    · have hc2 : g r c' = some v := hc'
      show (g r c').get (h.1 r c') = v
      rw [valAt_spec h.1 r c'] at hc2
      injection hc2 with hc2
      try exact hc2
  · rcases exactlyOnce_of_injective (validGrid_col_injective h c) v with ⟨r, hr, huniq⟩
    refine ⟨r, ?_, fun r' hr' => huniq r' ?_⟩
    · show g r c = some v
      rw [valAt_spec h.1 r c, hr]
    · have hr2 : g r' c = some v := hr'
      show (g r' c).get (h.1 r' c) = v
      rw [valAt_spec h.1 r' c] at hr2
      injection hr2 with hr2
      try exact hr2
  · rcases exactlyOnce_of_injective_block (validGrid_block_injective h bR bC) v with
      ⟨ij, hij, huniq⟩
    refine ⟨ij, ?_, fun ij' hij' => huniq ij' ?_⟩
    · show g (blockCell bR ij.1) (blockCell bC ij.2) = some v
      rw [valAt_spec h.1 (blockCell bR ij.1) (blockCell bC ij.2), hij]
    · have hij2 : g (blockCell bR ij'.1) (blockCell bC ij'.2) = some v := hij'
      show (g (blockCell bR ij'.1) (blockCell bC ij'.2)).get
        (h.1 (blockCell bR ij'.1) (blockCell bC ij'.2)) = v
      rw [valAt_spec h.1 (blockCell bR ij'.1) (blockCell bC ij'.2)] at hij2
      injection hij2 with hij2
      try exact hij2

-- The search functions are kept out of definitional unfolding from here on:
-- the remaining proofs reason about them only through the lemmas above, and
-- unfolding them on symbolic grids makes the elaborator diverge.
attribute [irreducible] tryValues solveBruteCS countSolutions hasUniqueSolution
attribute [irreducible] tryValuesL solveBruteL countSolutionsLimited hasLimitedUniqueSolution
attribute [irreducible] tryValuesSB solveBoardRecursive generateSolvedBoard

-- setCell algebra

lemma setCell_same (g : Grid) (r c : Fin 16) (v : Option Val) :
    setCell g r c v r c = v := by
  unfold setCell
  rw [if_pos ⟨rfl, rfl⟩]

lemma setCell_ne (g : Grid) (r c : Fin 16) (v : Option Val) {r' c' : Fin 16}
    (h : ¬(r' = r ∧ c' = c)) : setCell g r c v r' c' = g r' c' := if_neg h

lemma setCell_setCell (g : Grid) (r c : Fin 16) (u v : Option Val) :
    setCell (setCell g r c u) r c v = setCell g r c v := by
  funext r' c'
  unfold setCell
  by_cases h : r' = r ∧ c' = c
  · rw [if_pos h, if_pos h]
  · rw [if_neg h, if_neg h, if_neg h]

lemma setCell_self (g : Grid) (r c : Fin 16) : setCell g r c (g r c) = g := by
  funext r' c'
  unfold setCell
  by_cases h : r' = r ∧ c' = c
  · rw [if_pos h, h.1, h.2]
  · rw [if_neg h]

-- Fisher-Yates shuffling is a permutation

lemma getD_cons_perm (d : α) :
    ∀ (xs : List α) (j : Nat) (x : α), j < xs.length →
      (xs.getD j d :: xs.set j x).Perm (x :: xs) := by
  intro xs
  induction xs with
  | nil => intro j x h; exact absurd h (by simp)
  | cons y t ih =>
    intro j x h
    cases j with
    | zero =>
      simp only [List.getD_cons_zero, List.set_cons_zero]
      exact List.Perm.swap x y t
    | succ j =>
      simp only [List.getD_cons_succ, List.set_cons_succ]
      have h' : j < t.length := by simpa using h
      have p1 : (t.getD j d :: y :: t.set j x).Perm (y :: t.getD j d :: t.set j x) :=
        List.Perm.swap y (t.getD j d) (t.set j x)
      have p2 : (y :: t.getD j d :: t.set j x).Perm (y :: x :: t) :=
        List.Perm.cons y (ih j x h')
      have p3 : (y :: x :: t).Perm (x :: y :: t) := List.Perm.swap x y t
      exact (p1.trans p2).trans p3

lemma swapJS_perm (d : α) (l : List α) (i j : Nat) (hi : i < l.length)
    (hj : j < l.length) : (swapJS d l i j).Perm l := by
  unfold swapJS
  have hmlen : (l.set i (l.getD j d)).length = l.length := by simp
  have hmj : (l.set i (l.getD j d)).getD j d = l.getD j d := by
    by_cases hij : i = j
    · subst hij
      rw [List.getD_eq_getElem?_getD, List.getElem?_set_self hi]
      rfl
    · rw [List.getD_eq_getElem?_getD, List.getElem?_set_ne hij,
        ← List.getD_eq_getElem?_getD]
  have p1 := getD_cons_perm d (l.set i (l.getD j d)) j (l.getD i d) (by omega)
  have p2 := getD_cons_perm d l i (l.getD j d) hi
  rw [hmj] at p1
  exact (List.perm_cons (l.getD j d)).1 (p1.trans p2)

lemma fisherYatesAux_perm (rs : Nat → Nat) (d : α) :
    ∀ (n : Nat) (l : List α), n < l.length → (fisherYatesAux rs d n l).Perm l := by
  intro n
  induction n with
  | zero => intro l _; exact List.Perm.refl l
  | succ n ih =>
    intro l h
    simp only [fisherYatesAux]
    have hj : rs (n + 1) % (n + 2) < l.length := by
      have : rs (n + 1) % (n + 2) < n + 2 := Nat.mod_lt _ (by omega)
      omega
    have hswap := swapJS_perm d l (n + 1) (rs (n + 1) % (n + 2)) h hj
    have hlen := hswap.length_eq
    exact (ih _ (by omega)).trans hswap

lemma fisherYates_perm (rs : Nat → Nat) (d : α) (l : List α) :
    (fisherYates rs d l).Perm l := by
  unfold fisherYates
  rcases l with _ | ⟨x, t⟩
  · exact List.Perm.refl _
  · exact fisherYatesAux_perm rs d _ _ (by simp)

lemma coordsList_length : coordsList.length = 256 := by decide

lemma coordsList_nodup : coordsList.Nodup := by decide

-- refinement of the solution through the carving phases

lemma refines_refl (s : Grid) : refines s s := fun _ _ => Or.inr rfl

lemma refines_setNone {p s : Grid} (h : refines p s) (r c : Fin 16) :
    refines (setCell p r c none) s := by
  intro r' c'
  by_cases hq : r' = r ∧ c' = c
  · left
    unfold setCell
    rw [if_pos hq]
  · unfold setCell
    rw [if_neg hq]
    exact h r' c'

lemma refines_setSol {p s : Grid} (h : refines p s) (r c : Fin 16) :
    refines (setCell p r c (s r c)) s := by
  intro r' c'
  by_cases hq : r' = r ∧ c' = c
  · right
    unfold setCell
    rw [if_pos hq, hq.1, hq.2]
  · unfold setCell
    rw [if_neg hq]
    exact h r' c'

lemma symRemLoop_refines (cap : ℚ) :
    ∀ (prs : List ((Fin 16 × Fin 16) × (Fin 16 × Fin 16))) (p : Grid) (removed : Nat)
      (s : Grid), refines p s → refines (symRemLoop cap prs p removed).1 s := by
  intro prs
  induction prs with
  | nil => intro p removed s h; exact h
  | cons pr rest ih =>
    intro p removed s h
    simp only [symRemLoop]
    by_cases hcap : cap ≤ (removed : ℚ)
    · rw [if_pos hcap]
      exact h
    · rw [if_neg hcap]
      by_cases hsame : pr.1.1 = pr.2.1 ∧ pr.1.2 = pr.2.2
      · rw [if_pos hsame]
        exact ih p removed s h
      · rw [if_neg hsame]
        exact ih _ _ s (refines_setNone (refines_setNone h _ _) _ _)

lemma guidedStep_refines {s : Grid} (d : Difficulty) (st : GuidedState)
    (cell : CellPriority) (h : refines st.puzzle s) :
    refines (guidedStep d st cell).puzzle s := by
  unfold guidedStep
  simp only
  split
  · simp only
    rw [setCell_setCell, setCell_self]
    exact h
  · simp only
    exact refines_setNone h _ _

lemma guidedLoop_refines {s : Grid} (d : Difficulty) (remaining maxAtt : Nat) :
    ∀ (l : List CellPriority) (st : GuidedState), refines st.puzzle s →
      refines (guidedLoop d remaining maxAtt l st).puzzle s := by
  intro l
  induction l with
  | nil => intro st h; exact h
  | cons cell rest ih =>
    intro st h
    simp only [guidedLoop]
    split
    · exact h
    · exact ih _ (guidedStep_refines d st cell h)

lemma restoreLoop_refines (sol : Grid) :
    ∀ (l : List (Fin 16 × Fin 16)) (n : Nat) (p : Grid), refines p sol →
      refines (restoreLoop sol l n p) sol := by
  intro l
  induction l with
  | nil =>
    intro n p h
    cases n with
    | zero => exact h
    | succ n => exact h
  | cons q rest ih =>
    intro n p h
    cases n with
    | zero => exact h
    | succ n =>
      simp only [restoreLoop]
      split
      · exact h
      · exact ih n _ (refines_setSol h _ _)

lemma performSymmetricRemoval_refines (sol : Grid) (t : Nat) (sh : Nat → Nat) :
    refines (performSymmetricRemoval sol t sh).1 sol := by
  unfold performSymmetricRemoval
  exact symRemLoop_refines _ _ _ _ _ (refines_refl sol)

lemma performGuidedRemoval_refines {p sol : Grid} (h : refines p sol) (n : Nat)
    (d : Difficulty) (jit : Nat → ℚ) :
    refines (performGuidedRemoval p n d jit).1 sol := by
  unfold performGuidedRemoval
  exact guidedLoop_refines _ _ _ _ _ h

lemma restoreForUniqueness_refines {p sol : Grid} (h : refines p sol) (sh : Nat → Nat) :
    refines (restoreForUniqueness p sol sh) sol := by
  unfold restoreForUniqueness
  exact restoreLoop_refines _ _ _ _ h

lemma phase2_refines {p sol : Grid} (h : refines p sol) (k t : Nat)
    (d : Difficulty) (jit : Nat → ℚ) :
    refines (if k < t then (performGuidedRemoval p (t - k) d jit).1 else p) sol := by
  by_cases hlt : k < t
  · rw [if_pos hlt]
    exact performGuidedRemoval_refines h (t - k) d jit
  · rw [if_neg hlt]
    exact h

lemma phase3_refines {p sol : Grid} (h : refines p sol) (sh : Nat → Nat) :
    refines (if hasUniqueSolution p then p else restoreForUniqueness p sol sh) sol := by
  by_cases hu : hasUniqueSolution p = true
  · rw [if_pos hu]
    exact h
  · rw [if_neg hu]
    exact restoreForUniqueness_refines h sh

lemma generateOptimizedUniquePuzzle_spec (solution : Grid) (target : Nat)
    (d : Difficulty) (rs : RandomSource) :
    (generateOptimizedUniquePuzzle solution target d rs).solution = solution ∧
    refines (generateOptimizedUniquePuzzle solution target d rs).puzzle solution := by
  refine ⟨rfl, ?_⟩
  exact phase3_refines
    (phase2_refines (performSymmetricRemoval_refines solution target rs.pairShuffle)
      (performSymmetricRemoval solution target rs.pairShuffle).2 target d rs.jitter)
    rs.restoreShuffle

lemma generatePuzzle_spec (d : Difficulty) (rs : RandomSource) :
    (generatePuzzle d rs).solution = generateSolvedBoard rs.perm ∧
    refines (generatePuzzle d rs).puzzle (generatePuzzle d rs).solution := by
  unfold generatePuzzle
  by_cases hd : d = Difficulty.test
  · rw [if_pos hd]
    refine ⟨rfl, ?_⟩
    simp only
    exact refines_setNone (refines_setNone (refines_refl _) _ _) _ _
  · rw [if_neg hd]
    obtain ⟨hs, hr⟩ := generateOptimizedUniquePuzzle_spec (generateSolvedBoard rs.perm)
      (targetEmptyCellsFor d) d rs
    exact ⟨hs, by rw [hs]; exact hr⟩

lemma overlay_eq_of_refines {p s : Grid} (h : refines p s) : overlay p s = s := by
  funext r c
  have hgoal : overlay p s r c
      = (match p r c with | some v => some v | none => s r c) := rfl
  rw [hgoal]
  rcases hv : p r c with _ | v
  · rfl
  · have he : s r c = some v := by
      rcases h r c with hn | he
      · rw [hv] at hn
        cases hn
      · rw [← he, hv]
    rw [he]

/-- C1. For every difficulty and every randomness oracle, filling every
empty cell of the returned puzzle with the value at the same coordinates in
the returned solution yields a grid passing `isSolved`; every already
filled cell of the puzzle equals the corresponding solution cell. -/
theorem generatePuzzle_roundTrip (d : Difficulty) (rs : RandomSource) :
    isSolved (overlay (generatePuzzle d rs).puzzle (generatePuzzle d rs).solution)
      = true ∧
    ∀ r c, (generatePuzzle d rs).puzzle r c = none ∨
      (generatePuzzle d rs).puzzle r c = (generatePuzzle d rs).solution r c := by
  obtain ⟨hsol, href⟩ := generatePuzzle_spec d rs
  refine ⟨?_, href⟩
  rw [overlay_eq_of_refines href, hsol]
  exact (isSolved_iff_validGrid _).2 (generateSolvedBoard_valid rs.perm)

/-- C6. With difficulty `test`, the returned puzzle differs from the
returned solution at exactly two distinct cells: both are empty in the
puzzle and filled in the solution, and every other cell of the puzzle
equals the corresponding solution cell. -/
theorem generatePuzzle_test_two_cells (rs : RandomSource) :
    ∃ p0 p1 : Fin 16 × Fin 16, p0 ≠ p1 ∧
      (generatePuzzle Difficulty.test rs).puzzle p0.1 p0.2 = none ∧
      (generatePuzzle Difficulty.test rs).puzzle p1.1 p1.2 = none ∧
      (generatePuzzle Difficulty.test rs).solution p0.1 p0.2 ≠ none ∧
      (generatePuzzle Difficulty.test rs).solution p1.1 p1.2 ≠ none ∧
      ∀ q : Fin 16 × Fin 16, q = p0 ∨ q = p1 ∨
        (generatePuzzle Difficulty.test rs).puzzle q.1 q.2 =
          (generatePuzzle Difficulty.test rs).solution q.1 q.2 := by
  have hperm := fisherYates_perm rs.testShuffle ((0, 0) : Fin 16 × Fin 16) coordsList
  have hnodup : (fisherYates rs.testShuffle (0, 0) coordsList).Nodup :=
    hperm.symm.nodup coordsList_nodup
  have hlen : (fisherYates rs.testShuffle (0, 0) coordsList).length = 256 :=
    hperm.length_eq.trans coordsList_length
  set positions := fisherYates rs.testShuffle ((0, 0) : Fin 16 × Fin 16) coordsList
    with hpos
  set p0 := positions.getD 0 (0, 0) with hp0
  set p1 := positions.getD 1 (0, 0) with hp1
  have hne : p0 ≠ p1 := by
    intro he
    rw [hp0, hp1, List.getD_eq_getElem positions (0, 0) (by omega),
      List.getD_eq_getElem positions (0, 0) (by omega)] at he
    have := (List.Nodup.getElem_inj_iff hnodup).1 he
    omega
  have hvalid := generateSolvedBoard_valid rs.perm
  have hfull : ∀ r c, generateSolvedBoard rs.perm r c ≠ none := by
    intro r c hn
    have := hvalid.1 r c
    rw [hn] at this
    exact absurd this (by simp)
  have hres : generatePuzzle Difficulty.test rs =
      { puzzle := setCell (setCell (generateSolvedBoard rs.perm) p0.1 p0.2 none)
          p1.1 p1.2 none
        solution := generateSolvedBoard rs.perm } := by
    unfold generatePuzzle
    rw [if_pos rfl]
  refine ⟨p0, p1, hne, ?_, ?_, hfull p0.1 p0.2, hfull p1.1 p1.2, ?_⟩
  · rw [hres]
    simp only
    rw [setCell_ne _ _ _ _ (by
      intro hc
      exact hne (Prod.ext hc.1 hc.2) |>.elim), setCell_same]
  · rw [hres]
    simp only
    rw [setCell_same]
  · intro q
    by_cases hq0 : q = p0
    · exact Or.inl hq0
    by_cases hq1 : q = p1
    · exact Or.inr (Or.inl hq1)
    refine Or.inr (Or.inr ?_)
    rw [hres]
    simp only
    rw [setCell_ne _ _ _ _ (fun hc => hq1 (Prod.ext hc.1 hc.2)),
      setCell_ne _ _ _ _ (fun hc => hq0 (Prod.ext hc.1 hc.2))]

/-- C7 counterexample. The object returned by `generatePuzzle` carries
exactly the fields `puzzle` and `solution`; no `status` field and no
distinct "uniqueness not verified" indication accompanies the pair, at the
concrete difficulty `hard` and a concrete randomness source (or any
other input: the return type has no further field). -/
theorem generatePuzzle_no_status_counterexample :
    generateResultFields (generatePuzzle Difficulty.hard rsZero) =
      ["puzzle", "solution"] ∧
    "uniqueness not verified" ∉
      generateResultFields (generatePuzzle Difficulty.hard rsZero) ∧
    "status" ∉ generateResultFields (generatePuzzle Difficulty.hard rsZero) := by
  refine ⟨rfl, ?_, ?_⟩
  · intro h
    simp only [generateResultFields, List.mem_cons, List.mem_singleton,
      List.not_mem_nil, or_false] at h
    rcases h with h | h <;> exact absurd h (by decide)
  · intro h
    simp only [generateResultFields, List.mem_cons, List.mem_singleton,
      List.not_mem_nil, or_false] at h
    rcases h with h | h <;> exact absurd h (by decide)

/-- C7 (amended). In every case — in particular when the phase-3
restoration repair exhausts its cap and the final puzzle still fails the
exact `hasUniqueSolution` check — `generatePuzzle` returns the bare
`{puzzle, solution}` record with no accompanying status field (and it
never throws: the embedding is a total function); the solution field is the
generated solved board passed through unchanged. -/
theorem generatePuzzle_bare_pair (d : Difficulty) (rs : RandomSource) :
    generateResultFields (generatePuzzle d rs) = ["puzzle", "solution"] ∧
    "uniqueness not verified" ∉ generateResultFields (generatePuzzle d rs) ∧
    (generatePuzzle d rs).solution = generateSolvedBoard rs.perm := by
  refine ⟨rfl, ?_, (generatePuzzle_spec d rs).1⟩
  intro h
  simp only [generateResultFields, List.mem_cons, List.mem_singleton,
    List.not_mem_nil, or_false] at h
  rcases h with h | h <;> exact absurd h (by decide)

/-- C8. Phase-2 guided removal, with attempts numbered from 1: `easy` runs
the bounded uniqueness check only on attempts divisible by 3, `medium`
only on even attempts, `hard` on every attempt; when a due check fails the
tentatively cleared cell is restored to its original value and not counted,
otherwise it stays cleared and counts toward the target. -/
theorem guidedRemoval_sampling (d : Difficulty) (st : GuidedState)
    (cell : CellPriority) :
    (shouldValidateFlag Difficulty.easy (st.attempts + 1) =
      decide ((st.attempts + 1) % 3 = 0)) ∧
    (shouldValidateFlag Difficulty.medium (st.attempts + 1) =
      decide ((st.attempts + 1) % 2 = 0)) ∧
    (shouldValidateFlag Difficulty.hard (st.attempts + 1) = true) ∧
    ((guidedStep d st cell).attempts = st.attempts + 1) ∧
    (guidedStep d st cell =
      if shouldValidateFlag d (st.attempts + 1) &&
          !hasLimitedUniqueSolution (setCell st.puzzle cell.row cell.col none)
      then { puzzle := st.puzzle, removed := st.removed,
             attempts := st.attempts + 1 }
      else { puzzle := setCell st.puzzle cell.row cell.col none,
             removed := st.removed + 1, attempts := st.attempts + 1 }) := by
  refine ⟨?_, ?_, ?_, ?_, ?_⟩
  · by_cases h3 : (st.attempts + 1) % 3 = 0 <;>
      simp [shouldValidateFlag, h3]
  · by_cases h2 : (st.attempts + 1) % 2 = 0 <;>
      simp [shouldValidateFlag, h2]
  · simp [shouldValidateFlag]
  · unfold guidedStep
    simp only
    split <;> rfl
  · unfold guidedStep
    simp only
    split
    · rw [setCell_setCell, setCell_self]
    · rfl

end Sudoxu
